import Mathlib

/-!
Verification of the socketgen descriptor-extraction pipeline.

The definitions below are a shallow embedding of the Go sources:
- the descriptor structures and `analyzeDescriptor` from `parser/parser.go`
  (only the fields that function reads are modelled);
- `toCamelCase` and `toPascalCase` from `generator/utils.go`
  (Go's `unicode.ToUpper`/`ToLower` agree with `Char.toUpper`/`Char.toLower`
  on ASCII and the identifiers involved are ASCII, so the core functions are
  used for the per-character case mapping);
- the per-language dispatch loop of the `gen` command from `cmd/gen.go`,
  with the per-language generator calls abstracted as an oracle.
-/

namespace Socketgen

/-- Mirrors descriptorpb.OneofDescriptorProto as read by the parser: only the
oneof's name is consulted. -/
structure OneofDescriptorProto where
  name : String
  deriving DecidableEq

/-- Mirrors descriptorpb.FieldDescriptorProto as read by the parser: the field
name, the referenced type name (GetTypeName), and the optional oneof index. -/
structure FieldDescriptorProto where
  name : String
  typeName : String
  oneofIndex : Option Int
  deriving DecidableEq

/-- Mirrors descriptorpb.DescriptorProto as read by the parser: message name,
field list and oneof declarations, in declaration order. -/
structure DescriptorProto where
  name : String
  field : List FieldDescriptorProto
  oneofDecl : List OneofDescriptorProto
  deriving DecidableEq

/-- Mirrors descriptorpb.FileDescriptorProto as read by the parser: file name,
package and top-level message list. -/
structure FileDescriptorProto where
  name : String
  package : String
  messageType : List DescriptorProto
  deriving DecidableEq

/-- Mirrors descriptorpb.FileDescriptorSet: ordered list of file descriptors. -/
structure FileDescriptorSet where
  file : List FileDescriptorProto
  deriving DecidableEq

/-- PayloadMessage from parser.go: one extracted oneof variant. -/
structure PayloadMessage where
  Name : String
  FieldName : String
  FullName : String
  deriving DecidableEq

/-- ParseResult from parser.go: the extracted descriptor model. -/
structure ParseResult where
  PackageName : String
  Payloads : List PayloadMessage
  deriving DecidableEq

/-- One constructor per distinct fmt.Errorf site inside analyzeDescriptor. -/
inductive AnalyzeError where
  | noFileDescriptors
  | wrapperNotFound (targetFile : String)
  | oneofNotFound
  deriving DecidableEq

/-- Go strings.HasSuffix s suf. -/
def goHasSuffix (s suf : String) : Bool :=
  suf.data.isSuffixOf s.data

/-- Go path/filepath.Base for slash-separated paths: empty input gives ".",
trailing separators are removed, the last path element is returned, and an
all-separator path gives "/". -/
def filepathBase (path : String) : String :=
  if path = "" then "."
  else
    let t := path.data.reverse.dropWhile (fun c => c = '/')
    let b := t.takeWhile (fun c => c ≠ '/')
    if b = [] then "/" else String.mk b.reverse

/-- Suffix of the string after its last dot: mirrors the strings.LastIndex
branch of analyzeDescriptor (if there is no dot the whole string is kept,
otherwise everything after the last dot). -/
def afterLastDot (l : List Char) : List Char :=
  if '.' ∈ l then (l.reverse.takeWhile (fun c => c ≠ '.')).reverse else l

/-- Go strings.TrimPrefix with the one-character pattern ".": removes a single
leading dot if present. -/
def trimLeadingDot (l : List Char) : List Char :=
  match l with
  | '.' :: rest => rest
  | _ => l

/-- Body of the field-collection loop in analyzeDescriptor: builds one
PayloadMessage from a field of the payload oneof. -/
def mkPayloadMessage (f : FieldDescriptorProto) : PayloadMessage :=
  { Name := String.mk (afterLastDot f.typeName.data)
    FieldName := f.name
    FullName := String.mk (trimLeadingDot f.typeName.data) }

/-- Target-file selection step of analyzeDescriptor: the first file whose
declared name ends with the base name of the requested file, else the last
file in the set, else none when the set is empty. -/
def selectTargetFile (fds : FileDescriptorSet) (targetFile : String) :
    Option FileDescriptorProto :=
  match fds.file.find? (fun fd => goHasSuffix fd.name (filepathBase targetFile)) with
  | some fd => some fd
  | none => fds.file.getLast?

/-- analyzeDescriptor from parser.go: select the target file, find the
GamePacket message, find the payload oneof, and collect the oneof's fields
into the result, in field declaration order. -/
def analyzeDescriptor (fds : FileDescriptorSet) (targetFile : String) :
    Except AnalyzeError ParseResult :=
  match selectTargetFile fds targetFile with
  | none => .error .noFileDescriptors
  | some targetFileDesc =>
    match targetFileDesc.messageType.find? (fun m => m.name == "GamePacket") with
    | none => .error (.wrapperNotFound targetFile)
    | some gamePacketMsg =>
      match gamePacketMsg.oneofDecl.findIdx? (fun o => o.name == "payload") with
      | none => .error .oneofNotFound
      | some oneofIndex =>
        .ok { PackageName := targetFileDesc.package
              Payloads := (gamePacketMsg.field.filter
                  (fun f => f.oneofIndex == some (Int.ofNat oneofIndex))).map
                  mkPayloadMessage }

/-- Character scan shared by toCamelCase and toPascalCase: an underscore sets
the nextUpper flag, a character seen with the flag set is uppercased. -/
def camelAux : Bool → List Char → List Char
  | _, [] => []
  | nextUpper, c :: cs =>
    if c = '_' then camelAux true cs
    else if nextUpper then Char.toUpper c :: camelAux false cs
    else c :: camelAux false cs

/-- toCamelCase from generator/utils.go: the first character (when it is not
an underscore) is lowercased, every character following one or more
underscores is uppercased, underscores are dropped. -/
def toCamelCase (s : String) : String :=
  match s.data with
  | [] => ""
  | c :: cs =>
    if c = '_' then String.mk (camelAux true cs)
    else String.mk (Char.toLower c :: camelAux false cs)

/-- toPascalCase from generator/utils.go: every character at the start of an
underscore-delimited segment is uppercased, underscores are dropped. -/
def toPascalCase (s : String) : String :=
  String.mk (camelAux true s.data)

/-- Outcome recorded for one requested language tag by the gen command. -/
inductive LangOutcome where
  | success
  | genFailure (msg : String)
  | unsupported
  deriving DecidableEq

/-- Language tags with a matching case in the gen command's switch. -/
def supportedLanguages : List String :=
  ["go", "ts", "python", "csharp", "dart", "php", "ruby", "kotlin", "java"]

/-- Per-language loop of the gen command in cmd/gen.go. The per-language
generator calls (generator.GenerateGo and its siblings) are abstracted as the
oracle `emit`; a tag with no matching case is recorded as unsupported and the
loop continues with the next tag. -/
def runLanguages (emit : String → Except String Unit) (langs : List String) :
    List (String × LangOutcome) :=
  langs.map (fun lang =>
    if lang ∈ supportedLanguages then
      match emit lang with
      | .ok _ => (lang, .success)
      | .error e => (lang, .genFailure e)
    else (lang, .unsupported))

/-- Split a character list at every occurrence of the separator, keeping empty
segments (spec-side segmentation helper). -/
def splitChar (sep : Char) : List Char → List (List Char)
  | [] => [[]]
  | c :: cs =>
    match splitChar sep cs with
    | [] => [[]]
    | s :: ss => if c = sep then [] :: s :: ss else (c :: s) :: ss

/-- Nonempty underscore-delimited segments of a character list (spec side):
consecutive underscores produce no empty segment. -/
def segs (l : List Char) : List (List Char) :=
  (splitChar '_' l).filter (fun s => s ≠ [])

/-- Uppercase the first character of a segment (spec side). -/
def capFirst : List Char → List Char
  | [] => []
  | c :: cs => Char.toUpper c :: cs

/-- Lowercase the first character of a list (spec side). -/
def lowFirst : List Char → List Char
  | [] => []
  | c :: cs => Char.toLower c :: cs

/-- Spec-side reading of the last dot-delimited segment of a type name. -/
def lastDotSegmentSpec (s : String) : String :=
  String.mk ((splitChar '.' s.data).getLastD [])

/-- Spec-side reading of stripping a single leading dot separator from a fully
qualified type reference. -/
def stripLeadingDotSpec (s : String) : String :=
  if s.data.take 1 = ['.'] then String.mk (s.data.drop 1) else s

/-- Modelled from the spec words of claim C7 (a reading the code is compared
against): the whole first underscore-delimited segment lowercased, each
subsequent segment capitalized at its first character, underscores removed. -/
def claimLowerCamel (s : String) : String :=
  match segs s.data with
  | [] => ""
  | seg0 :: rest =>
    String.mk (seg0.map Char.toLower ++ (rest.map capFirst).flatten)

/-- Segment-level description of toCamelCase (used by the amended claim C7):
when the input starts with an underscore every nonempty segment is capitalized
at its first character; otherwise the result is the capitalized segments with
the very first character lowercased instead. -/
def camelSegsSpec (l : List Char) : List Char :=
  match l with
  | [] => []
  | c :: _ =>
    if c = '_' then ((segs l).map capFirst).flatten
    else lowFirst (((segs l).map capFirst).flatten)

/-- Underscore-delimited lowercase ASCII identifier: nonempty, does not start
with an underscore, and every character is a lowercase ASCII letter, an ASCII
digit, or an underscore. -/
def IsSnakeIdent (s : String) : Prop :=
  s.data ≠ [] ∧ s.data.head? ≠ some '_' ∧
    ∀ c ∈ s.data, c.isLower ∨ c.isDigit ∨ c = '_'

instance (s : String) : Decidable (IsSnakeIdent s) := by
  unfold IsSnakeIdent; infer_instance

/-- Lowercase a string at its first character only (spec side, used to state
the round-trip property between the two naming transforms). -/
def lowerFirstStr (s : String) : String :=
  match s.data with
  | [] => ""
  | c :: cs => String.mk (Char.toLower c :: cs)

/-- GamePacket message of the starter packet.proto created by the init
command: a header field plus a payload oneof holding three variants. -/
def templateGamePacket : DescriptorProto :=
  ⟨"GamePacket",
   [⟨"header", ".packet.Header", none⟩,
    ⟨"login_req", ".packet.LoginReq", some 0⟩,
    ⟨"login_res", ".packet.LoginRes", some 0⟩,
    ⟨"chat_msg", ".packet.ChatMsg", some 0⟩],
   [⟨"payload"⟩]⟩

/-- Descriptor of the starter packet.proto created by the init command. -/
def templateFile : FileDescriptorProto :=
  { name := "packet.proto"
    package := "packet"
    messageType :=
      [⟨"Header", [], []⟩, ⟨"LoginReq", [], []⟩, ⟨"LoginRes", [], []⟩,
       ⟨"ChatMsg", [], []⟩, templateGamePacket] }

/-- Descriptor set holding only the starter file. -/
def templateSet : FileDescriptorSet := ⟨[templateFile]⟩

/-- File whose GamePacket has a payload oneof with no member fields. -/
def emptyOneofFile : FileDescriptorProto :=
  { name := "packet.proto"
    package := "packet"
    messageType :=
      [⟨"GamePacket", [⟨"header", ".packet.Header", none⟩], [⟨"payload"⟩]⟩] }

/-- Descriptor set whose payload oneof has zero member fields. -/
def emptyOneofSet : FileDescriptorSet := ⟨[emptyOneofFile]⟩

/-- File with no message named GamePacket. -/
def noWrapperFile : FileDescriptorProto :=
  { name := "packet.proto", package := "packet"
    messageType := [⟨"Header", [], []⟩] }

/-- Descriptor set whose only file lacks a GamePacket message. -/
def noWrapperSet : FileDescriptorSet := ⟨[noWrapperFile]⟩

/-- File whose GamePacket declares no oneof named payload. -/
def noOneofFile : FileDescriptorProto :=
  { name := "packet.proto", package := "packet"
    messageType :=
      [⟨"GamePacket", [⟨"header", ".packet.Header", none⟩], [⟨"other"⟩]⟩] }

/-- Descriptor set whose GamePacket has no payload oneof. -/
def noOneofSet : FileDescriptorSet := ⟨[noOneofFile]⟩

/-- Two-file descriptor set as produced for an import closure: an imported
file first, the requested file last. -/
def twoFileSet : FileDescriptorSet :=
  ⟨[⟨"common.proto", "common", []⟩, templateFile]⟩

/-!
Helper lemmas about the segmentation and case-mapping functions.
-/

theorem charToNat_ofNat {n : Nat} (h : n.isValidChar) : (Char.ofNat n).toNat = n := by
  unfold Char.ofNat
  rw [dif_pos h]
  rfl

theorem toLower_toUpper (c : Char) : c.toUpper.toLower = c.toLower := by
  unfold Char.toUpper Char.toLower
  by_cases h : c.toNat ≥ 97 ∧ c.toNat ≤ 122
  · have hv : (c.toNat - 32).isValidChar := by
      left
      omega
    rw [if_pos h, charToNat_ofNat hv]
    rw [if_pos (by omega), if_neg (by omega)]
    have : c.toNat - 32 + 32 = c.toNat := by omega
    rw [this, Char.ofNat_toNat]
  · rw [if_neg h]

theorem takeWhile_append_single {α : Type} (p : α → Bool) (xs : List α) (y : α)
    (h : p y = false) : (xs ++ [y]).takeWhile p = xs.takeWhile p := by
  induction xs with
  | nil => simp [List.takeWhile_cons, h]
  | cons x xs ih =>
    rw [List.cons_append, List.takeWhile_cons, List.takeWhile_cons]
    by_cases hx : p x = true
    · rw [if_pos hx, if_pos hx, ih]
    · rw [if_neg hx, if_neg hx]

theorem takeWhile_append_of_neg {α : Type} (p : α → Bool) (xs ys : List α)
    (h : ∃ x ∈ xs, p x = false) : (xs ++ ys).takeWhile p = xs.takeWhile p := by
  induction xs with
  | nil =>
    obtain ⟨x, hx, _⟩ := h
    exact absurd hx (List.not_mem_nil x)
  | cons x xs ih =>
    rw [List.cons_append, List.takeWhile_cons, List.takeWhile_cons]
    by_cases hx : p x = true
    · rw [if_pos hx, if_pos hx]
      obtain ⟨z, hz, hpz⟩ := h
      rcases List.mem_cons.mp hz with hzx | hzxs
      · subst hzx
        rw [hx] at hpz
        cases hpz
      · rw [ih ⟨z, hzxs, hpz⟩]
    · rw [if_neg hx, if_neg hx]

theorem splitChar_ne_nil (sep : Char) (l : List Char) : splitChar sep l ≠ [] := by
  cases l with
  | nil => simp [splitChar]
  | cons c cs =>
    rw [splitChar]
    cases hsp : splitChar sep cs with
    | nil => simp
    | cons s ss =>
      by_cases hc : c = sep
      · simp [hc]
      · simp [hc]

theorem splitChar_cons_sep (sep : Char) (cs : List Char) :
    splitChar sep (sep :: cs) = [] :: splitChar sep cs := by
  rw [splitChar]
  cases hsp : splitChar sep cs with
  | nil => exact absurd hsp (splitChar_ne_nil sep cs)
  | cons s ss => simp

theorem splitChar_cons_ne (sep c : Char) (cs : List Char) (hc : c ≠ sep)
    {s : List Char} {ss : List (List Char)} (hsp : splitChar sep cs = s :: ss) :
    splitChar sep (c :: cs) = (c :: s) :: ss := by
  unfold splitChar
  rw [hsp]
  simp [hc]

theorem splitChar_of_not_mem (sep : Char) (l : List Char) (h : sep ∉ l) :
    splitChar sep l = [l] := by
  induction l with
  | nil => rfl
  | cons c cs ih =>
    have hc : c ≠ sep := fun hcc => h (hcc ▸ List.mem_cons_self c cs)
    have hcs : sep ∉ cs := fun hmem => h (List.mem_cons_of_mem c hmem)
    exact splitChar_cons_ne sep c cs hc (ih hcs)

theorem splitChar_single (sep : Char) (l : List Char) {s : List Char}
    (h : splitChar sep l = [s]) : sep ∉ l ∧ s = l := by
  induction l generalizing s with
  | nil =>
    rw [splitChar] at h
    injection h with h1 h2
    subst h1
    simp
  | cons c cs ih =>
    by_cases hc : c = sep
    · subst hc
      rw [splitChar_cons_sep] at h
      injection h with h1 h2
      exact absurd h2 (splitChar_ne_nil c cs)
    · cases hsp : splitChar sep cs with
      | nil => exact absurd hsp (splitChar_ne_nil sep cs)
      | cons t ts =>
        rw [splitChar_cons_ne sep c cs hc hsp] at h
        injection h with h1 h2
        subst h2
        obtain ⟨hmem, heq⟩ := ih hsp
        subst heq
        subst h1
        constructor
        · intro hin
          rcases List.mem_cons.mp hin with h5 | h5
          · exact hc h5.symm
          · exact hmem h5
        · rfl

theorem afterLastDot_not_mem (l : List Char) (h : '.' ∉ l) : afterLastDot l = l := by
  simp [afterLastDot, h]

theorem afterLastDot_cons_mem (c : Char) (cs : List Char) (h : '.' ∈ cs) :
    afterLastDot (c :: cs) = afterLastDot cs := by
  have hmem : '.' ∈ c :: cs := List.mem_cons_of_mem c h
  rw [afterLastDot, if_pos hmem, afterLastDot, if_pos h]
  rw [List.reverse_cons]
  rw [takeWhile_append_of_neg _ _ _ ⟨'.', List.mem_reverse.mpr h, by simp⟩]

theorem afterLastDot_cons_dot (cs : List Char) (h : '.' ∉ cs) :
    afterLastDot ('.' :: cs) = cs := by
  rw [afterLastDot, if_pos (List.mem_cons_self '.' cs)]
  rw [List.reverse_cons, takeWhile_append_single _ _ _ (by simp)]
  have : cs.reverse.takeWhile (fun c => c ≠ '.') = cs.reverse := by
    rw [List.takeWhile_eq_self_iff]
    intro x hx
    simp only [ne_eq, decide_eq_true_eq]
    intro hxx
    exact h (List.mem_reverse.mp (hxx ▸ hx))
  rw [this, List.reverse_reverse]

theorem splitChar_getLast_dot (l : List Char) :
    (splitChar '.' l).getLast? = some (afterLastDot l) := by
  induction l with
  | nil =>
    simp [splitChar, afterLastDot]
  | cons c cs ih =>
    by_cases hc : c = '.'
    · subst hc
      rw [splitChar_cons_sep]
      cases hsp : splitChar '.' cs with
      | nil => exact absurd hsp (splitChar_ne_nil '.' cs)
      | cons s ss =>
        rw [List.getLast?_cons_cons]
        rw [hsp] at ih
        rw [ih]
        by_cases hmem : '.' ∈ cs
        · rw [afterLastDot_cons_mem '.' cs hmem]
        · rw [afterLastDot_cons_dot cs hmem, afterLastDot_not_mem cs hmem]
    · cases hsp : splitChar '.' cs with
      | nil => exact absurd hsp (splitChar_ne_nil '.' cs)
      | cons s ss =>
        rw [splitChar_cons_ne '.' c cs hc hsp]
        cases ss with
        | nil =>
          obtain ⟨hmem, heq⟩ := splitChar_single '.' cs hsp
          have hnotin : '.' ∉ c :: cs := by
            intro hin
            rcases List.mem_cons.mp hin with h5 | h5
            · exact hc h5.symm
            · exact hmem h5
          rw [afterLastDot_not_mem _ hnotin, heq]
          rfl
        | cons s2 ss2 =>
          rw [List.getLast?_cons_cons]
          have hmem : '.' ∈ cs := by
            by_contra hnot
            rw [splitChar_of_not_mem '.' cs hnot] at hsp
            injection hsp with h1 h2
            cases h2
          rw [afterLastDot_cons_mem c cs hmem]
          rw [hsp] at ih
          rw [List.getLast?_cons_cons] at ih
          exact ih

theorem camelAux_segments (l : List Char) :
    camelAux true l = ((segs l).map capFirst).flatten ∧
    ∀ s ss, splitChar '_' l = s :: ss →
      camelAux false l = s ++ (((ss.filter (fun t => t ≠ [])).map capFirst).flatten) := by
  induction l with
  | nil =>
    constructor
    · rfl
    · intro s ss h
      unfold splitChar at h
      cases h
      rfl
  | cons c cs ih =>
    obtain ⟨ih1, ih2⟩ := ih
    by_cases hc : c = '_'
    · subst hc
      have hsegs : segs ('_' :: cs) = segs cs := by
        unfold segs
        rw [splitChar_cons_sep]
        simp
      constructor
      · show camelAux true cs = _
        rw [ih1, hsegs]
      · intro s ss h
        rw [splitChar_cons_sep] at h
        injection h with h1 h2
        subst h1
        subst h2
        show camelAux true cs = [] ++ _
        rw [ih1, List.nil_append]
        rfl
    · cases hsp : splitChar '_' cs with
      | nil => exact absurd hsp (splitChar_ne_nil '_' cs)
      | cons s' ss' =>
        have hsegs : segs (c :: cs) = (c :: s') :: ss'.filter (fun t => t ≠ []) := by
          unfold segs
          rw [splitChar_cons_ne '_' c cs hc hsp]
          simp
        constructor
        · show (if c = '_' then camelAux true cs
            else if true then Char.toUpper c :: camelAux false cs
            else c :: camelAux false cs) = _
          rw [if_neg hc, if_pos rfl, hsegs]
          rw [ih2 s' ss' hsp]
          simp [capFirst]
        · intro s ss h
          rw [splitChar_cons_ne '_' c cs hc hsp] at h
          injection h with h1 h2
          subst h1
          subst h2
          show (if c = '_' then camelAux true cs
            else if false then Char.toUpper c :: camelAux false cs
            else c :: camelAux false cs) = _
          rw [if_neg hc, if_neg (by simp), ih2 s' ss' hsp]
          simp

/-!
Theorems for the extraction claims.
-/

/-- C1: when the selected target file holds a GamePacket message with a
payload oneof, extraction succeeds and its variant list is exactly the
oneof's member fields, mapped in declaration order; its length is the number
of member fields, and re-running extraction on an identical tree yields the
identical model. -/
theorem analyzeDescriptor_variants_in_order
    (fds : FileDescriptorSet) (targetFile : String)
    (f : FileDescriptorProto) (m : DescriptorProto) (i : Nat)
    (hsel : selectTargetFile fds targetFile = some f)
    (hmsg : f.messageType.find? (fun d => d.name == "GamePacket") = some m)
    (hone : m.oneofDecl.findIdx? (fun o => o.name == "payload") = some i)
    (hk : 1 ≤ (m.field.filter (fun fl => fl.oneofIndex == some (Int.ofNat i))).length) :
    analyzeDescriptor fds targetFile =
      Except.ok
        { PackageName := f.package
          Payloads := (m.field.filter
              (fun fl => fl.oneofIndex == some (Int.ofNat i))).map mkPayloadMessage } ∧
    (∀ r, analyzeDescriptor fds targetFile = Except.ok r →
      r.Payloads.length =
        (m.field.filter (fun fl => fl.oneofIndex == some (Int.ofNat i))).length) ∧
    (∀ fds2 : FileDescriptorSet, fds2 = fds →
      analyzeDescriptor fds2 targetFile = analyzeDescriptor fds targetFile) := by
  have h1 : analyzeDescriptor fds targetFile =
      Except.ok
        { PackageName := f.package
          Payloads := (m.field.filter
              (fun fl => fl.oneofIndex == some (Int.ofNat i))).map mkPayloadMessage } := by
    simp only [analyzeDescriptor, hsel, hmsg, hone]
  refine ⟨h1, ?_, ?_⟩
  · intro r hr
    rw [h1] at hr
    cases hr
    simp [List.length_map]
  · intro fds2 h2
    rw [h2]

/-- C1 witness: the starter descriptor tree has three payload variants,
extracted in declaration order. -/
theorem analyzeDescriptor_variants_in_order_witness :
    analyzeDescriptor templateSet "packet.proto" =
      Except.ok
        { PackageName := "packet"
          Payloads :=
            [⟨"LoginReq", "login_req", "packet.LoginReq"⟩,
             ⟨"LoginRes", "login_res", "packet.LoginRes"⟩,
             ⟨"ChatMsg", "chat_msg", "packet.ChatMsg"⟩] } := by
  have h := analyzeDescriptor_variants_in_order templateSet "packet.proto"
    templateFile templateGamePacket 0 rfl rfl rfl (by decide)
  exact h.1.trans (by rfl)

/-- C2 counterexample: on a tree whose GamePacket has a payload oneof with
zero member fields, extraction succeeds with an empty variant list instead of
failing; no error is produced. -/
theorem analyzeDescriptor_empty_oneof_succeeds :
    analyzeDescriptor emptyOneofSet "packet.proto" =
      Except.ok { PackageName := "packet", Payloads := [] } ∧
    ∀ e, analyzeDescriptor emptyOneofSet "packet.proto" ≠ Except.error e := by
  refine ⟨rfl, ?_⟩
  intro e h
  rw [show analyzeDescriptor emptyOneofSet "packet.proto" =
      Except.ok { PackageName := "packet", Payloads := [] } from rfl] at h
  exact Except.noConfusion h

/-- C2 amended: when the selected target file holds a GamePacket message with
a payload oneof none of whose fields belong to it, extraction succeeds and
returns a model with an empty variants list (the code raises no error for an
empty variant set). -/
theorem analyzeDescriptor_empty_oneof_ok
    (fds : FileDescriptorSet) (targetFile : String)
    (f : FileDescriptorProto) (m : DescriptorProto) (i : Nat)
    (hsel : selectTargetFile fds targetFile = some f)
    (hmsg : f.messageType.find? (fun d => d.name == "GamePacket") = some m)
    (hone : m.oneofDecl.findIdx? (fun o => o.name == "payload") = some i)
    (hnone : ∀ fl ∈ m.field, ¬fl.oneofIndex = some (Int.ofNat i)) :
    analyzeDescriptor fds targetFile =
      Except.ok { PackageName := f.package, Payloads := [] } := by
  have hf : m.field.filter (fun fl => fl.oneofIndex == some (Int.ofNat i)) = [] := by
    rw [List.filter_eq_nil_iff]
    intro a ha
    simpa using hnone a ha
  simp only [analyzeDescriptor, hsel, hmsg, hone, hf, List.map_nil]

/-- C2 amended witness: the empty-oneof tree yields a model with an empty
variants list. -/
theorem analyzeDescriptor_empty_oneof_ok_witness :
    analyzeDescriptor emptyOneofSet "packet.proto" =
      Except.ok { PackageName := "packet", Payloads := [] } := by
  have h := analyzeDescriptor_empty_oneof_ok emptyOneofSet "packet.proto"
    emptyOneofFile ⟨"GamePacket", [⟨"header", ".packet.Header", none⟩], [⟨"payload"⟩]⟩ 0
    rfl rfl rfl (by decide)
  exact h.trans (by rfl)

/-- C3: when the selected target file has no top-level message named
GamePacket, extraction fails with the wrapper-not-found error and produces no
model. -/
theorem analyzeDescriptor_wrapper_not_found
    (fds : FileDescriptorSet) (targetFile : String) (f : FileDescriptorProto)
    (hsel : selectTargetFile fds targetFile = some f)
    (hno : ∀ d ∈ f.messageType, d.name ≠ "GamePacket") :
    analyzeDescriptor fds targetFile =
      Except.error (AnalyzeError.wrapperNotFound targetFile) := by
  have hfind : f.messageType.find? (fun d => d.name == "GamePacket") = none :=
    List.find?_eq_none.mpr (fun d hd => by simpa using hno d hd)
  simp only [analyzeDescriptor, hsel, hfind]

/-- C3 witness: a tree whose only file lacks GamePacket fails with the
wrapper-not-found error. -/
theorem analyzeDescriptor_wrapper_not_found_witness :
    analyzeDescriptor noWrapperSet "packet.proto" =
      Except.error (AnalyzeError.wrapperNotFound "packet.proto") :=
  analyzeDescriptor_wrapper_not_found noWrapperSet "packet.proto" noWrapperFile
    rfl (by decide)

/-- C4: when the selected target file holds GamePacket but none of its oneof
declarations is named payload, extraction fails with the oneof-not-found
error and produces no model. -/
theorem analyzeDescriptor_oneof_not_found
    (fds : FileDescriptorSet) (targetFile : String)
    (f : FileDescriptorProto) (m : DescriptorProto)
    (hsel : selectTargetFile fds targetFile = some f)
    (hmsg : f.messageType.find? (fun d => d.name == "GamePacket") = some m)
    (hno : ∀ o ∈ m.oneofDecl, o.name ≠ "payload") :
    analyzeDescriptor fds targetFile = Except.error AnalyzeError.oneofNotFound := by
  have hfind : m.oneofDecl.findIdx? (fun o => o.name == "payload") = none :=
    List.findIdx?_eq_none_iff.mpr (fun o ho => by simpa using hno o ho)
  simp only [analyzeDescriptor, hsel, hmsg, hfind]

/-- C4 witness: a tree whose GamePacket has only an oneof named other fails
with the oneof-not-found error. -/
theorem analyzeDescriptor_oneof_not_found_witness :
    analyzeDescriptor noOneofSet "packet.proto" =
      Except.error AnalyzeError.oneofNotFound :=
  analyzeDescriptor_oneof_not_found noOneofSet "packet.proto" noOneofFile
    ⟨"GamePacket", [⟨"header", ".packet.Header", none⟩], [⟨"other"⟩]⟩
    rfl rfl (by decide)

/-- C5: on a non-empty tree, target-file selection returns a file whose
declared name ends with the base filename of the requested path whenever such
a file exists, and otherwise returns the last file of the tree. -/
theorem selectTargetFile_suffix_or_last
    (fds : FileDescriptorSet) (targetFile : String) (h : fds.file ≠ []) :
    ((∃ fd ∈ fds.file, goHasSuffix fd.name (filepathBase targetFile) = true) →
      ∃ fd, selectTargetFile fds targetFile = some fd ∧
        goHasSuffix fd.name (filepathBase targetFile) = true) ∧
    ((∀ fd ∈ fds.file, goHasSuffix fd.name (filepathBase targetFile) = false) →
      selectTargetFile fds targetFile = some (fds.file.getLast h)) := by
  constructor
  · intro hex
    have hsome : (fds.file.find?
        (fun fd => goHasSuffix fd.name (filepathBase targetFile))).isSome :=
      List.find?_isSome.mpr hex
    obtain ⟨fd, hfd⟩ := Option.isSome_iff_exists.mp hsome
    have hp : goHasSuffix fd.name (filepathBase targetFile) = true :=
      List.find?_some
        (p := fun x : FileDescriptorProto => goHasSuffix x.name (filepathBase targetFile)) hfd
    refine ⟨fd, ?_, hp⟩
    simp only [selectTargetFile, hfd]
  · intro hall
    have hfind : fds.file.find?
        (fun fd => goHasSuffix fd.name (filepathBase targetFile)) = none :=
      List.find?_eq_none.mpr (fun fd hfd => by simp [hall fd hfd])
    simp only [selectTargetFile, hfind]
    exact List.getLast?_eq_getLast _ h

/-- C5 witness: in a two-file closure where the last file's declared name ends
with the requested base name, selection returns that file. -/
theorem selectTargetFile_suffix_or_last_witness :
    ∃ fd, selectTargetFile twoFileSet "proto/packet.proto" = some fd ∧
      goHasSuffix fd.name (filepathBase "proto/packet.proto") = true :=
  (selectTargetFile_suffix_or_last twoFileSet "proto/packet.proto"
    (by decide)).1 ⟨templateFile, by decide, by decide⟩

/-- C10: on a tree with zero file descriptors, extraction fails with the
no-file-descriptors error rather than applying the last-file fallback or
returning a model. -/
theorem analyzeDescriptor_no_files
    (fds : FileDescriptorSet) (targetFile : String) (h : fds.file = []) :
    analyzeDescriptor fds targetFile = Except.error AnalyzeError.noFileDescriptors := by
  have hsel : selectTargetFile fds targetFile = none := by
    simp [selectTargetFile, h]
  simp only [analyzeDescriptor, hsel]

/-- C10 witness: the empty descriptor set fails with the no-file-descriptors
error. -/
theorem analyzeDescriptor_no_files_witness :
    analyzeDescriptor ⟨[]⟩ "packet.proto" =
      Except.error AnalyzeError.noFileDescriptors :=
  analyzeDescriptor_no_files ⟨[]⟩ "packet.proto" rfl

/-- C9: the gen command's language loop processes the requested tags in the
given order, records every tag outside the declared set as unsupported, and
records one outcome per requested tag regardless of any per-language failure,
so no tag's failure stops the tags after it. -/
theorem runLanguages_order_and_isolation
    (emit : String → Except String Unit) (langs : List String) :
    (runLanguages emit langs).map Prod.fst = langs ∧
    (runLanguages emit langs).length = langs.length ∧
    (∀ lang ∈ langs, lang ∉ supportedLanguages →
      (lang, LangOutcome.unsupported) ∈ runLanguages emit langs) := by
  refine ⟨?_, ?_, ?_⟩
  · unfold runLanguages
    rw [List.map_map]
    have hcong : ∀ lang ∈ langs,
        (Prod.fst ∘ fun lang =>
          if lang ∈ supportedLanguages then
            match emit lang with
            | .ok _ => (lang, LangOutcome.success)
            | .error e => (lang, LangOutcome.genFailure e)
          else (lang, LangOutcome.unsupported)) lang = id lang := by
      intro lang _
      by_cases hmem : lang ∈ supportedLanguages
      · simp only [Function.comp, if_pos hmem, id]
        cases emit lang <;> rfl
      · simp only [Function.comp, if_neg hmem, id]
    rw [List.map_congr_left hcong, List.map_id]
  · unfold runLanguages
    exact List.length_map _ _
  · intro lang hmem hns
    unfold runLanguages
    exact List.mem_map.mpr ⟨lang, hmem, by simp [hns]⟩

theorem trimLeadingDot_eq_strip (l : List Char) :
    trimLeadingDot l = if l.take 1 = ['.'] then l.drop 1 else l := by
  cases l with
  | nil => rfl
  | cons c cs =>
    by_cases hc : c = '.'
    · subst hc
      simp [trimLeadingDot]
    · rw [if_neg (by simp [hc])]
      unfold trimLeadingDot
      split
      · next heq => injection heq with h1 h2; exact absurd h1 hc
      · rfl

/-- C6: each produced payload variant takes its type name from the last
dot-delimited segment of the field's referenced type name, its qualified type
name from the reference with a single leading dot separator stripped, and its
field name from the field's declared name; the field login_req of type
.packet.LoginReq yields the LoginReq, login_req, packet.LoginReq triple. -/
theorem mkPayloadMessage_fields (f : FieldDescriptorProto) :
    (mkPayloadMessage f).Name = lastDotSegmentSpec f.typeName ∧
    (mkPayloadMessage f).FieldName = f.name ∧
    (mkPayloadMessage f).FullName = stripLeadingDotSpec f.typeName ∧
    mkPayloadMessage ⟨"login_req", ".packet.LoginReq", some 0⟩ =
      ⟨"LoginReq", "login_req", "packet.LoginReq"⟩ := by
  refine ⟨?_, rfl, ?_, by decide⟩
  · show String.mk (afterLastDot f.typeName.data) = lastDotSegmentSpec f.typeName
    unfold lastDotSegmentSpec
    rw [List.getLastD_eq_getLast?, splitChar_getLast_dot]
    rfl
  · show String.mk (trimLeadingDot f.typeName.data) = stripLeadingDotSpec f.typeName
    unfold stripLeadingDotSpec
    rw [trimLeadingDot_eq_strip]
    by_cases h : f.typeName.data.take 1 = ['.']
    · rw [if_pos h, if_pos h]
    · rw [if_neg h, if_neg h]

/-- C7 counterexample: the code's lowerCamel keeps the capital B of aB, while
lowercasing the whole first underscore-delimited segment, as the claim reads,
gives ab; after a leading underscore the code capitalizes the first segment
instead of lowercasing it. -/
theorem toCamelCase_not_whole_segment_lower :
    toCamelCase "aB" = "aB" ∧ claimLowerCamel "aB" = "ab" ∧
    toCamelCase "aB" ≠ claimLowerCamel "aB" ∧
    toCamelCase "_req" = "Req" := by
  decide

/-- C7 amended: UpperCamel capitalizes the first character of every nonempty
underscore-delimited segment and removes underscores; lowerCamel agrees with
it except that an input starting with a non-underscore character gets its
first character lowercased instead of capitalized, the rest of the first
segment passing through unchanged, while after a leading underscore every
segment including the first is capitalized; empty input yields empty output
and consecutive underscores collapse, since only nonempty segments
contribute; both functions are total. -/
theorem camel_transforms_segment_spec (s : String) :
    toPascalCase s = String.mk (((segs s.data).map capFirst).flatten) ∧
    toCamelCase s = String.mk (camelSegsSpec s.data) := by
  constructor
  · show String.mk (camelAux true s.data) = _
    rw [(camelAux_segments s.data).1]
  · unfold toCamelCase camelSegsSpec
    cases hl : s.data with
    | nil => rfl
    | cons c cs =>
      by_cases hc : c = '_'
      · subst hc
        have hsegs : segs ('_' :: cs) = segs cs := by
          unfold segs
          rw [splitChar_cons_sep]
          simp
        show String.mk (camelAux true cs) =
          String.mk (((segs ('_' :: cs)).map capFirst).flatten)
        rw [hsegs, (camelAux_segments cs).1]
      · simp only [if_neg hc]
        cases hsp : splitChar '_' cs with
        | nil => exact absurd hsp (splitChar_ne_nil '_' cs)
        | cons s' ss' =>
          have hsegs : segs (c :: cs) = (c :: s') :: ss'.filter (fun t => t ≠ []) := by
            unfold segs
            rw [splitChar_cons_ne '_' c cs hc hsp]
            simp
          rw [hsegs, (camelAux_segments cs).2 s' ss' hsp]
          simp [capFirst, lowFirst, toLower_toUpper]

/-- C8: for every underscore-delimited lowercase ASCII identifier, the
UpperCamel result with its first character lowercased equals the lowerCamel
result. -/
theorem pascal_lowered_eq_camel (s : String) (h : IsSnakeIdent s) :
    lowerFirstStr (toPascalCase s) = toCamelCase s := by
  obtain ⟨hne, hhead, -⟩ := h
  unfold toPascalCase toCamelCase lowerFirstStr
  cases hl : s.data with
  | nil => exact absurd hl hne
  | cons c cs =>
    have hc : c ≠ '_' := by
      rw [hl] at hhead
      simpa using hhead
    have hstep : camelAux true (c :: cs) = Char.toUpper c :: camelAux false cs := by
      rw [camelAux, if_neg hc]
      simp
    simp only [if_neg hc]
    rw [hstep]
    show String.mk (Char.toLower (Char.toUpper c) :: camelAux false cs) =
      String.mk (Char.toLower c :: camelAux false cs)
    rw [toLower_toUpper]

/-- C8 witness: the identifier login_req satisfies the identifier shape and
the round-trip equality, both transforms mapping it to loginReq. -/
theorem pascal_lowered_eq_camel_witness :
    IsSnakeIdent "login_req" ∧
    lowerFirstStr (toPascalCase "login_req") = toCamelCase "login_req" ∧
    toCamelCase "login_req" = "loginReq" :=
  ⟨by decide, pascal_lowered_eq_camel "login_req" (by decide), by decide⟩

/-- C9 witness: requesting go, bogus, ts keeps the order, yields one outcome
per tag, and records bogus as unsupported. -/
theorem runLanguages_order_and_isolation_witness :
    (runLanguages (fun _ => Except.ok ()) ["go", "bogus", "ts"]).map Prod.fst =
        ["go", "bogus", "ts"] ∧
    (runLanguages (fun _ => Except.ok ()) ["go", "bogus", "ts"]).length = 3 ∧
    ("bogus", LangOutcome.unsupported) ∈
      runLanguages (fun _ => Except.ok ()) ["go", "bogus", "ts"] :=
  ⟨(runLanguages_order_and_isolation (fun _ => Except.ok ()) ["go", "bogus", "ts"]).1,
   (runLanguages_order_and_isolation (fun _ => Except.ok ()) ["go", "bogus", "ts"]).2.1,
   (runLanguages_order_and_isolation (fun _ => Except.ok ()) ["go", "bogus", "ts"]).2.2
     "bogus" (by decide) (by decide)⟩

end Socketgen
